import Mathlib

/-!
Verification of the span-diff reconciliation algorithm of `DetectPII.validate`
(src/app/detect_pii/detect_pii.py) against its specification.

The Python code computes a character-level diff between the original text and
the anonymized text (via `difflib.Differ.compare`), then scans the tagged
sequence left to right, collecting maximal runs of removed characters as
`(start, end)` ranges measured in offsets of the original string, and wraps
each range into an `ErrorSpan` with a fixed reason template.
-/

set_option maxRecDepth 10000

namespace FirewallMCP

/-- The classification tag attached by the character differ to each element:
`kept` (in both strings, difflib prefix `"  "`), `removed` (only in the
original, prefix `"- "`), `inserted` (only in the modified, prefix `"+ "`). -/
inductive DiffTag where
  | kept
  | removed
  | inserted
deriving DecidableEq, Repr

/-- One element of the character-level edit script: a tag plus the character
it refers to (one line of `difflib.Differ.compare` output). -/
structure DiffOp where
  tag : DiffTag
  char : Char
deriving DecidableEq, Repr

/-- The characters of the original string recoverable from a diff script:
every op whose tag is not `inserted` carries one character of the original
(mirrors `difflib.restore(diff, 1)`). -/
def restoreOriginal (d : List DiffOp) : List Char :=
  (d.filter (fun op => op.tag ≠ DiffTag.inserted)).map (fun op => op.char)

/-- The characters of the modified string recoverable from a diff script:
every op whose tag is not `removed` carries one character of the modified
string (mirrors `difflib.restore(diff, 2)`). -/
def restoreModified (d : List DiffOp) : List Char :=
  (d.filter (fun op => op.tag ≠ DiffTag.removed)).map (fun op => op.char)

/-- The classification contract of the external character differ: the script
`d` is a valid edit script between `a` and `b` when the non-inserted
characters spell `a` and the non-removed characters spell `b`. Any
LCS/edit-distance differ (in particular `difflib`) satisfies this. -/
def ValidDiff (d : List DiffOp) (a b : List Char) : Prop :=
  restoreOriginal d = a ∧ restoreModified d = b

instance (d : List DiffOp) (a b : List Char) : Decidable (ValidDiff d a b) :=
  inferInstanceAs (Decidable (_ ∧ _))

/-- The mutable state of the scan loop in `DetectPII.validate`:
`start_range` (the pending open-range start, `None` when no range is open),
`curr_index_in_original` (`curr`), and the accumulated `diff_ranges`. -/
structure ScanState where
  start_range : Option Nat
  curr : Nat
  ranges : List (Nat × Nat)
deriving DecidableEq, Repr

/-- One iteration of the `for i in range(len(diffs))` loop body of
`DetectPII.validate`, translated statement by statement:

    if start_range is not None and diffs[i][0] != "-":
        diff_ranges.append((start_range, curr_index_in_original))
        start_range = None
    if diffs[i][0] == "-":
        if start_range is None:
            start_range = curr_index_in_original
    if diffs[i][0] != "+":
        curr_index_in_original += 1
-/
def scanStep (st : ScanState) (op : DiffOp) : ScanState :=
  let st1 :=
    match st.start_range with
    | some s =>
        if op.tag ≠ DiffTag.removed then
          { st with ranges := st.ranges ++ [(s, st.curr)], start_range := none }
        else st
    | none => st
  let st2 :=
    if op.tag = DiffTag.removed then
      match st1.start_range with
      | some _ => st1
      | none => { st1 with start_range := some st1.curr }
    else st1
  if op.tag ≠ DiffTag.inserted then { st2 with curr := st2.curr + 1 } else st2

/-- The full scan loop of `DetectPII.validate`, starting from
`start_range = None`, `curr_index_in_original = 0`, `diff_ranges = []`.
Note: the Python code performs no close after the loop, so a run of removed
characters that reaches the end of the diff is left in `start_range` and
discarded. -/
def scanDiff (diffs : List DiffOp) : ScanState :=
  diffs.foldl scanStep ⟨none, 0, []⟩

/-- The `diff_ranges` list as computed by `DetectPII.validate`. -/
def diff_ranges (diffs : List DiffOp) : List (Nat × Nat) :=
  (scanDiff diffs).ranges

/-- Python slice `value[s:e]` for `0 ≤ s ≤ e` on a list of characters. -/
def pySlice (value : List Char) (s e : Nat) : List Char :=
  (value.drop s).take (e - s)

/-- `ErrorSpan` result element. Modelled from the spec: the class lives in
`utils/classes.py`, which is not in the sources; the fields `start`, `end`,
`reason` follow §3's Finding `(range, reason)` and the constructor call
`ErrorSpan(start=..., end=..., reason=...)` in `DetectPII.validate`. -/
structure ErrorSpan where
  start : Nat
  «end» : Nat
  reason : List Char
deriving DecidableEq, Repr

/-- The `error_spans` list built by `DetectPII.validate`: one `ErrorSpan`
per range, with `reason = f"PII detected in {value[start:end]}"`. -/
def error_spans (value : List Char) (ranges : List (Nat × Nat)) : List ErrorSpan :=
  ranges.map (fun r =>
    { start := r.1, «end» := r.2,
      reason := "PII detected in ".toList ++ pySlice value r.1 r.2 })

/-- One row of the LCS dynamic-programming table: given the row for `as`
against all suffixes of `b` (`prev`), produce the row for `ai :: as` against
all suffixes of `b`. Entry `j` holds `lcsLen (ai :: as) (b.drop j)`. -/
def lcsRow (ai : Char) : List Char → List Nat → List Nat
  | [], _ => [0]
  | bj :: bs, prev =>
      let rest := lcsRow ai bs (prev.drop 1)
      (if ai = bj then (prev.drop 1).headD 0 + 1
       else max (rest.headD 0) (prev.headD 0)) :: rest

/-- The full LCS table: row `i` holds the LCS lengths of `a.drop i` against
every suffix of `b`. Modelled from the spec: the repository delegates the
edit script to `difflib` (an external library); §4 step 1 allows "any
edit-distance/LCS-based differ" with deterministic tie-breaking. -/
def lcsTable : List Char → List Char → List (List Nat)
  | [], b => [List.replicate (b.length + 1) 0]
  | a :: as, b =>
      let rest := lcsTable as b
      lcsRow a b (rest.headD []) :: rest

/-- Walk of the LCS table producing the classified edit script. `table` holds
the rows for the current suffix of `a` onwards; `j` is the offset of the
current suffix of `b`. On a match of heads the character is `kept`; otherwise
the branch with the larger remaining LCS is taken, deletions preferred on
ties (a deterministic tie-break, as §4 step 1 requires). The recursion is
driven by a `fuel` counter; any value at least `a.length + b.length` lets
the walk run to the end of both lists. -/
def lcsWalk (table : List (List Nat)) : Nat → List Char → List Char → Nat → List DiffOp
  | _, [], bs, _ => bs.map (fun b => ⟨DiffTag.inserted, b⟩)
  | _, a :: as, [], _ => (a :: as).map (fun c => ⟨DiffTag.removed, c⟩)
  | 0, _ :: _, _ :: _, _ => []
  | fuel + 1, a :: as, b :: bs, j =>
      if a = b then
        ⟨DiffTag.kept, a⟩ :: lcsWalk (table.drop 1) fuel as bs (j + 1)
      else
        let down := ((table.drop 1).headD []).getD j 0
        let right := (table.headD []).getD (j + 1) 0
        if right ≤ down then
          ⟨DiffTag.removed, a⟩ :: lcsWalk (table.drop 1) fuel as (b :: bs) j
        else
          ⟨DiffTag.inserted, b⟩ :: lcsWalk table fuel (a :: as) bs (j + 1)

/-- The character-level differ. Modelled from the spec: stands in for
`difflib.Differ().compare(value, anonymized_text)` (external library); it is
a deterministic LCS-based differ classifying every character of both inputs
as kept, removed, or inserted, as §4 step 1 specifies. -/
def lcsDiff (a b : List Char) : List DiffOp :=
  lcsWalk (lcsTable a b) (a.length + b.length) a b 0

/-- The reconciliation `reconcile(original, modified)` of §4.1: diff the two
strings, scan for removed runs, and attach reasons — exactly the
diff-and-scan block of `DetectPII.validate` (lines 150–174). -/
def reconcile (original modified : List Char) : List ErrorSpan :=
  error_spans original (diff_ranges (lcsDiff original modified))

/-- Invariant maintained by the scan loop: collected ranges form an ordered,
disjoint chain; every range is nonempty and its end is at most the running
offset; and an open start is below the running offset and at least every
collected end. -/
def ScanInv (st : ScanState) : Prop :=
  List.Chain' (fun r1 r2 => r1.2 ≤ r2.1) st.ranges ∧
  (∀ r ∈ st.ranges, r.1 < r.2 ∧ r.2 ≤ st.curr) ∧
  (∀ s, st.start_range = some s → s < st.curr ∧ ∀ r ∈ st.ranges, r.2 ≤ s)

/-- Interleaved reconstruction of §8 property 2: walk the flagged ranges in
order from cursor `c`, emitting the unflagged portion before each range, then
the flagged substring, and finally the unflagged tail. -/
def reconstructGo (a : List Char) : Nat → List (Nat × Nat) → List Char
  | c, [] => a.drop c
  | c, (s, e) :: rs => pySlice a c s ++ pySlice a s e ++ reconstructGo a e rs

/-- Interleaving of the flagged substrings with the unflagged portions of the
original, in order. -/
def reconstruct (a : List Char) (rs : List (Nat × Nat)) : List Char :=
  reconstructGo a 0 rs

/-- The scan loop with its element accesses made explicit and fallible:
`for i in range(len(diffs))` reads `diffs[i]`, which is modelled by `diffs[i]?`,
propagating `none` if an access were ever out of bounds. -/
def scanLoopChecked (diffs : List DiffOp) : Nat → Nat → ScanState → Option ScanState
  | 0, _, st => some st
  | n + 1, i, st =>
      match diffs[i]? with
      | some op => scanLoopChecked diffs n (i + 1) (scanStep st op)
      | none => none

/-- The whole scan with checked accesses, from the same initial state. -/
def scanDiffChecked (diffs : List DiffOp) : Option ScanState :=
  scanLoopChecked diffs diffs.length 0 ⟨none, 0, []⟩

/-- The reconciliation with every fallible step made explicit; `none` would
mean a raised fault. -/
def reconcileChecked (original modified : List Char) : Option (List ErrorSpan) :=
  (scanDiffChecked (lcsDiff original modified)).map
    (fun st => error_spans original st.ranges)

/-- A run of characters all classified `kept`. -/
def keptOps (l : List Char) : List DiffOp :=
  l.map (fun c => ⟨DiffTag.kept, c⟩)

/-- A run of characters all classified `removed`. -/
def removedOps (l : List Char) : List DiffOp :=
  l.map (fun c => ⟨DiffTag.removed, c⟩)

/-- The result hierarchy of the validator. Modelled from the spec: the
classes live in `utils/classes.py`, which is not in the sources; the
constructor calls `PassResult()` and `FailResult(error_message=...,
fix_value=..., error_spans=...)` in `DetectPII.validate` fix the fields. -/
inductive ValidationResult where
  | PassResult : ValidationResult
  | FailResult (error_message : List Char) (fix_value : List Char)
      (error_spans : List ErrorSpan) : ValidationResult
deriving DecidableEq, Repr

/-- The analyze-anonymize-compare-diff block of `DetectPII.validate`
(lines 141–182), parameterized by the external analyzer/anonymizer
(`self._inference_local`), which maps the entity list and the text to the
anonymized text. -/
def validate_core (inference : List String → List Char → List Char)
    (entities_to_filter : List String) (value : List Char) : ValidationResult :=
  let anonymized_text := inference entities_to_filter value
  if anonymized_text = value then ValidationResult.PassResult
  else
    ValidationResult.FailResult
      ("The following text in your response contains PII:\n".toList ++ value)
      anonymized_text
      (error_spans value (diff_ranges (lcsDiff value anonymized_text)))

/-- The dynamically-typed `pii_entities` setting: Python `None`, a string, a
list of strings, or a value of any other type. -/
inductive PyValue where
  | pyNone
  | pyStr (s : String)
  | pyList (l : List String)
  | other
deriving DecidableEq, Repr

/-- `DetectPII.PII_ENTITIES_MAP`, verbatim from the source. -/
def PII_ENTITIES_MAP : List (String × List String) :=
  [("pii",
    ["EMAIL_ADDRESS", "PHONE_NUMBER", "DOMAIN_NAME", "IP_ADDRESS",
     "DATE_TIME", "LOCATION", "PERSON", "URL"]),
   ("spi",
    ["CREDIT_CARD", "CRYPTO", "IBAN_CODE", "NRP", "MEDICAL_LICENSE",
     "US_BANK_NUMBER", "US_DRIVER_LICENSE", "US_ITIN", "US_PASSPORT",
     "US_SSN"])]

/-- The entity-resolution prologue of `DetectPII.validate` (lines 116–139):
`None` raises; a string is looked up in `PII_ENTITIES_MAP` (an unknown key
raises); a list is used as given; any other type raises. A raised
`ValueError` is modelled as `Except.error` carrying the message. -/
def resolve_pii_entities : PyValue → Except String (List String)
  | PyValue.pyNone =>
      Except.error
        "pii_entities must be set in order to use the DetectPII validator."
  | PyValue.pyStr s =>
      match PII_ENTITIES_MAP.lookup s with
      | some entities_to_filter => Except.ok entities_to_filter
      | none => Except.error "pii_entities must be one of [pii, spi]"
  | PyValue.pyList l => Except.ok l
  | PyValue.other =>
      Except.error "pii_entities must be one of [pii, spi] or a list of strings."

/-- `metadata.get("pii_entities", self.pii_entities)`: the metadata entry
takes precedence when present, else the constructor argument is used. -/
def effective_pii_entities (metadata : Option PyValue)
    (self_pii_entities : PyValue) : PyValue :=
  metadata.getD self_pii_entities

/-- The whole of `DetectPII.validate`: resolve the entity setting (possibly
raising), then run the analyze/anonymize/diff block. -/
def DetectPII_validate (inference : List String → List Char → List Char)
    (metadata : Option PyValue) (self_pii_entities : PyValue)
    (value : List Char) : Except String ValidationResult :=
  match resolve_pii_entities (effective_pii_entities metadata self_pii_entities) with
  | Except.error e => Except.error e
  | Except.ok entities_to_filter =>
      Except.ok (validate_core inference entities_to_filter value)

/-! ### Case equations for one scan step -/

theorem scanStep_kept_none (c : Nat) (rs : List (Nat × Nat)) (ch : Char) :
    scanStep ⟨none, c, rs⟩ ⟨DiffTag.kept, ch⟩ = ⟨none, c + 1, rs⟩ := rfl

theorem scanStep_kept_some (s c : Nat) (rs : List (Nat × Nat)) (ch : Char) :
    scanStep ⟨some s, c, rs⟩ ⟨DiffTag.kept, ch⟩ = ⟨none, c + 1, rs ++ [(s, c)]⟩ := rfl

theorem scanStep_removed_none (c : Nat) (rs : List (Nat × Nat)) (ch : Char) :
    scanStep ⟨none, c, rs⟩ ⟨DiffTag.removed, ch⟩ = ⟨some c, c + 1, rs⟩ := rfl

theorem scanStep_removed_some (s c : Nat) (rs : List (Nat × Nat)) (ch : Char) :
    scanStep ⟨some s, c, rs⟩ ⟨DiffTag.removed, ch⟩ = ⟨some s, c + 1, rs⟩ := rfl

theorem scanStep_inserted_none (c : Nat) (rs : List (Nat × Nat)) (ch : Char) :
    scanStep ⟨none, c, rs⟩ ⟨DiffTag.inserted, ch⟩ = ⟨none, c, rs⟩ := rfl

theorem scanStep_inserted_some (s c : Nat) (rs : List (Nat × Nat)) (ch : Char) :
    scanStep ⟨some s, c, rs⟩ ⟨DiffTag.inserted, ch⟩ = ⟨none, c, rs ++ [(s, c)]⟩ := rfl

/-! ### The scan invariant -/

theorem chain'_append_singleton {rs : List (Nat × Nat)} {s c : Nat}
    (hch : List.Chain' (fun r1 r2 => r1.2 ≤ r2.1) rs)
    (hle : ∀ r ∈ rs, r.2 ≤ s) :
    List.Chain' (fun r1 r2 => r1.2 ≤ r2.1) (rs ++ [(s, c)]) := by
  rw [List.chain'_append]
  refine ⟨hch, List.chain'_singleton _, ?_⟩
  intro x hx y hy
  obtain ⟨hne, rfl⟩ := List.mem_getLast?_eq_getLast hx
  have hy' : (s, c) = y := by simpa [Option.mem_def] using hy
  subst hy'
  exact hle _ (List.getLast_mem hne)

theorem scanStep_inv (st : ScanState) (op : DiffOp) (h : ScanInv st) :
    ScanInv (scanStep st op) := by
  obtain ⟨sr, c, rs⟩ := st
  obtain ⟨tag, ch⟩ := op
  obtain ⟨hch, hb, hs⟩ := h
  cases tag <;> cases sr
  · rw [scanStep_kept_none]
    refine ⟨hch, fun r hr => ⟨(hb r hr).1, (hb r hr).2.trans (Nat.le_succ c)⟩,
      fun s hs' => by simp at hs'⟩
  · rename_i s
    obtain ⟨hsc, hse⟩ := hs s rfl
    rw [scanStep_kept_some]
    refine ⟨chain'_append_singleton hch hse, ?_, fun s hs' => by simp at hs'⟩
    intro r hr
    rcases List.mem_append.1 hr with hr | hr
    · exact ⟨(hb r hr).1, (hb r hr).2.trans (Nat.le_succ c)⟩
    · have : r = (s, c) := by simpa using hr
      subst this
      exact ⟨hsc, Nat.le_succ c⟩
  · rw [scanStep_removed_none]
    refine ⟨hch, fun r hr => ⟨(hb r hr).1, (hb r hr).2.trans (Nat.le_succ c)⟩, ?_⟩
    intro s hs'
    obtain rfl : c = s := by simpa using hs'
    exact ⟨Nat.lt_succ_self c, fun r hr => (hb r hr).2⟩
  · rename_i s
    obtain ⟨hsc, hse⟩ := hs s rfl
    rw [scanStep_removed_some]
    refine ⟨hch, fun r hr => ⟨(hb r hr).1, (hb r hr).2.trans (Nat.le_succ c)⟩, ?_⟩
    intro s' hs'
    obtain rfl : s = s' := by simpa using hs'
    exact ⟨hsc.trans (Nat.lt_succ_self c), hse⟩
  · rw [scanStep_inserted_none]
    exact ⟨hch, hb, fun s hs' => by simp at hs'⟩
  · rename_i s
    obtain ⟨hsc, hse⟩ := hs s rfl
    rw [scanStep_inserted_some]
    refine ⟨chain'_append_singleton hch hse, ?_, fun s hs' => by simp at hs'⟩
    intro r hr
    rcases List.mem_append.1 hr with hr | hr
    · exact hb r hr
    · have : r = (s, c) := by simpa using hr
      subst this
      exact ⟨hsc, Nat.le_refl c⟩

theorem scanFoldl_inv (d : List DiffOp) (st : ScanState) (h : ScanInv st) :
    ScanInv (d.foldl scanStep st) := by
  induction d generalizing st with
  | nil => exact h
  | cons op d ih => exact ih _ (scanStep_inv st op h)

theorem scanDiff_inv (d : List DiffOp) : ScanInv (scanDiff d) := by
  refine scanFoldl_inv d _ ⟨List.chain'_nil, ?_, ?_⟩
  · intro r hr; simp at hr
  · intro s hs; simp at hs

theorem scanStep_curr (st : ScanState) (op : DiffOp) :
    (scanStep st op).curr =
      st.curr + (if op.tag ≠ DiffTag.inserted then 1 else 0) := by
  obtain ⟨sr, c, rs⟩ := st
  obtain ⟨tag, ch⟩ := op
  cases tag <;> cases sr <;> rfl

theorem scanFoldl_curr (d : List DiffOp) (st : ScanState) :
    (d.foldl scanStep st).curr =
      st.curr + (d.filter (fun op => op.tag ≠ DiffTag.inserted)).length := by
  induction d generalizing st with
  | nil => simp
  | cons op d ih =>
      rw [List.foldl_cons, ih, scanStep_curr, List.filter_cons]
      by_cases htag : op.tag = DiffTag.inserted
      · simp [htag]
      · simp [htag]
        omega

theorem scanDiff_curr (a b : List Char) (d : List DiffOp) (h : ValidDiff d a b) :
    (scanDiff d).curr = a.length := by
  have hlen : (d.filter (fun op => op.tag ≠ DiffTag.inserted)).length = a.length := by
    have := congrArg List.length h.1
    simpa [restoreOriginal] using this
  rw [scanDiff, scanFoldl_curr]
  simpa using hlen

/-! ### Runs of uniformly tagged operations -/

theorem foldl_keptOps (l : List Char) :
    ∀ (c : Nat) (rs : List (Nat × Nat)),
      (keptOps l).foldl scanStep ⟨none, c, rs⟩ = ⟨none, c + l.length, rs⟩ := by
  induction l with
  | nil => intro c rs; simp [keptOps]
  | cons ch l ih =>
      intro c rs
      rw [keptOps, List.map_cons, List.foldl_cons, scanStep_kept_none, ← keptOps, ih]
      congr 1
      simp
      omega

theorem foldl_keptOps_open (l : List Char) (hne : l ≠ []) (s : Nat) :
    ∀ (c : Nat) (rs : List (Nat × Nat)),
      (keptOps l).foldl scanStep ⟨some s, c, rs⟩ =
        ⟨none, c + l.length, rs ++ [(s, c)]⟩ := by
  cases l with
  | nil => exact absurd rfl hne
  | cons ch l =>
      intro c rs
      rw [keptOps, List.map_cons, List.foldl_cons, scanStep_kept_some, ← keptOps,
        foldl_keptOps]
      congr 1
      simp
      omega

theorem foldl_removedOps_open (l : List Char) (s : Nat) :
    ∀ (c : Nat) (rs : List (Nat × Nat)),
      (removedOps l).foldl scanStep ⟨some s, c, rs⟩ = ⟨some s, c + l.length, rs⟩ := by
  induction l with
  | nil => intro c rs; simp [removedOps]
  | cons ch l ih =>
      intro c rs
      rw [removedOps, List.map_cons, List.foldl_cons, scanStep_removed_some,
        ← removedOps, ih]
      congr 1
      simp
      omega

theorem foldl_removedOps (l : List Char) (hne : l ≠ []) :
    ∀ (c : Nat) (rs : List (Nat × Nat)),
      (removedOps l).foldl scanStep ⟨none, c, rs⟩ = ⟨some c, c + l.length, rs⟩ := by
  cases l with
  | nil => exact absurd rfl hne
  | cons ch l =>
      intro c rs
      rw [removedOps, List.map_cons, List.foldl_cons, scanStep_removed_none,
        ← removedOps, foldl_removedOps_open]
      congr 1
      simp
      omega

/-! ### The differ on identical inputs -/

theorem lcsWalk_self (s : List Char) :
    ∀ (table : List (List Nat)) (fuel j : Nat), s.length ≤ fuel →
      lcsWalk table fuel s s j = keptOps s := by
  induction s with
  | nil => intro table fuel j _; cases fuel <;> simp [lcsWalk, keptOps]
  | cons a as ih =>
      intro table fuel j hf
      cases fuel with
      | zero => simp at hf
      | succ fuel =>
          rw [lcsWalk, if_pos rfl, ih _ fuel (j + 1) (by simpa using Nat.le_of_succ_le_succ hf)]
          rfl

theorem lcsDiff_self (s : List Char) : lcsDiff s s = keptOps s :=
  lcsWalk_self s _ _ 0 (by omega)

theorem diff_ranges_keptOps (s : List Char) : diff_ranges (keptOps s) = [] := by
  rw [diff_ranges, scanDiff, foldl_keptOps]

/-! ### Reconstruction -/

theorem pySlice_append_drop (a : List Char) (c e : Nat) (h1 : c ≤ e) :
    pySlice a c e ++ a.drop e = a.drop c := by
  rw [pySlice, show a.drop e = (a.drop c).drop (e - c) by
    rw [List.drop_drop]; congr 1; omega]
  exact List.take_append_drop _ _

theorem reconstructGo_eq (a : List Char) (rs : List (Nat × Nat)) :
    ∀ c : Nat,
      List.Chain' (fun r1 r2 => r1.2 ≤ r2.1) rs →
      (∀ r ∈ rs, r.1 < r.2) →
      (∀ r ∈ rs.head?, c ≤ r.1) →
      reconstructGo a c rs = a.drop c := by
  induction rs with
  | nil => intro c _ _ _; rfl
  | cons r rs ih =>
      obtain ⟨s, e⟩ := r
      intro c hch hlt hc
      have hcs : c ≤ s := by
        have := hc (s, e) (by simp)
        simpa using this
      have hse : s ≤ e := Nat.le_of_lt (hlt (s, e) (by simp))
      obtain ⟨hhead, htail⟩ := List.chain'_cons'.1 hch
      rw [reconstructGo, ih e htail (fun r hr => hlt r (by simp [hr])) hhead,
        List.append_assoc, pySlice_append_drop a s e hse, pySlice_append_drop a c s hcs]

/-! ### Shapes of the produced error spans -/

theorem error_spans_ranges (value : List Char) (rs : List (Nat × Nat)) :
    (error_spans value rs).map (fun f => (f.start, f.«end»)) = rs := by
  induction rs with
  | nil => rfl
  | cons r rs ih => simp [error_spans] at ih ⊢; exact ih

theorem error_spans_reason (value : List Char) (rs : List (Nat × Nat))
    (f : ErrorSpan) (hf : f ∈ error_spans value rs) :
    f.reason = "PII detected in ".toList ++ pySlice value f.start f.«end» := by
  rw [error_spans, List.mem_map] at hf
  obtain ⟨r, _, rfl⟩ := hf
  rfl

/-! ### The checked loop never faults -/

theorem scanLoopChecked_eq (d : List DiffOp) :
    ∀ (n i : Nat) (st : ScanState), i + n = d.length →
      scanLoopChecked d n i st = some ((d.drop i).foldl scanStep st) := by
  intro n
  induction n with
  | zero =>
      intro i st hi
      have : d.drop i = [] := by
        rw [show i = d.length by omega]
        exact List.drop_length d
      rw [scanLoopChecked, this]
      rfl
  | succ n ih =>
      intro i st hi
      have hilt : i < d.length := by omega
      rw [scanLoopChecked, List.getElem?_eq_getElem hilt,
        List.drop_eq_getElem_cons hilt, List.foldl_cons]
      exact ih (i + 1) _ (by omega)

theorem scanDiffChecked_eq (d : List DiffOp) : scanDiffChecked d = some (scanDiff d) :=
  scanLoopChecked_eq d d.length 0 _ (by omega)

/-! ### Entity-map lookup -/

theorem lookup_PII_map_none_iff (s : String) :
    PII_ENTITIES_MAP.lookup s = none ↔ s ≠ "pii" ∧ s ≠ "spi" := by
  by_cases hp : s = "pii"
  · subst hp; simp [PII_ENTITIES_MAP, List.lookup]
  · by_cases hs : s = "spi"
    · subst hs; simp [PII_ENTITIES_MAP, List.lookup]
    · have h1 : (s == "pii") = false := beq_eq_false_iff_ne.2 hp
      have h2 : (s == "spi") = false := beq_eq_false_iff_ne.2 hs
      simp [PII_ENTITIES_MAP, List.lookup, h1, h2, hp, hs]

theorem resolve_error_iff (v : PyValue) :
    (∃ e, resolve_pii_entities v = Except.error e) ↔
      (v = PyValue.pyNone ∨
       (∃ s, v = PyValue.pyStr s ∧ s ≠ "pii" ∧ s ≠ "spi") ∨
       v = PyValue.other) := by
  cases v with
  | pyNone => simp [resolve_pii_entities]
  | pyStr s =>
      rcases hl : PII_ENTITIES_MAP.lookup s with _ | l
      · have hne := (lookup_PII_map_none_iff s).1 hl
        simp [resolve_pii_entities, hl, hne]
      · have hmem : ¬(s ≠ "pii" ∧ s ≠ "spi") := by
          intro hcon
          rw [(lookup_PII_map_none_iff s).2 hcon] at hl
          simp at hl
        simp [resolve_pii_entities, hl, hmem]
  | pyList l => simp [resolve_pii_entities]
  | other => simp [resolve_pii_entities]

/-! ## The claims -/

/-- C1: the claim states that a diff ending in a run of removed characters has
that trailing run closed at the final offset and emitted as a Finding, with
`reconcile("hello world", "hello")` yielding the single range `(5, 11)` and
`reconcile("abc", "")` covering the whole original. The code performs no close
after its scan loop: on both inputs the run is still open in `start_range`
when the loop ends, and no Finding at all is returned. -/
theorem trailing_removed_run_dropped :
    reconcile "hello world".toList "hello".toList = [] ∧
    (scanDiff (lcsDiff "hello world".toList "hello".toList)).start_range = some 5 ∧
    reconcile "abc".toList "".toList = [] ∧
    (scanDiff (lcsDiff "abc".toList "".toList)).start_range = some 0 :=
  ⟨by decide, by decide, by decide, by decide⟩

/-- C2: for every valid character-level edit script between the original and
the modified string, the ranges produced by the scan of `DetectPII.validate`
are non-overlapping and sorted (each end is at most the next start) and every
range satisfies `0 ≤ start < end ≤ length of the original`. -/
theorem diff_ranges_sorted_disjoint_bounded (a b : List Char) (d : List DiffOp)
    (h : ValidDiff d a b) :
    List.Chain' (fun r1 r2 => r1.2 ≤ r2.1) (diff_ranges d) ∧
    ∀ r ∈ diff_ranges d, 0 ≤ r.1 ∧ r.1 < r.2 ∧ r.2 ≤ a.length := by
  obtain ⟨hch, hb, -⟩ := scanDiff_inv d
  refine ⟨hch, fun r hr => ⟨Nat.zero_le _, (hb r hr).1, ?_⟩⟩
  rw [← scanDiff_curr a b d h]
  exact (hb r hr).2

theorem diff_ranges_sorted_disjoint_bounded_witness :
    ValidDiff [⟨DiffTag.kept, 'x'⟩, ⟨DiffTag.removed, 'a'⟩, ⟨DiffTag.kept, 'y'⟩]
        "xay".toList "xy".toList ∧
    (List.Chain' (fun r1 r2 => r1.2 ≤ r2.1)
        (diff_ranges [⟨DiffTag.kept, 'x'⟩, ⟨DiffTag.removed, 'a'⟩, ⟨DiffTag.kept, 'y'⟩]) ∧
      ∀ r ∈ diff_ranges [⟨DiffTag.kept, 'x'⟩, ⟨DiffTag.removed, 'a'⟩, ⟨DiffTag.kept, 'y'⟩],
        0 ≤ r.1 ∧ r.1 < r.2 ∧ r.2 ≤ "xay".toList.length) :=
  ⟨by decide, diff_ranges_sorted_disjoint_bounded "xay".toList "xy".toList _ (by decide)⟩

/-- C3: `reconcile(s, s)` is the empty sequence for every string `s`
(including the empty string), and the wrapper short-circuits to `PassResult`
whenever the anonymized text equals the input, before any diff is taken. -/
theorem reconcile_identity_short_circuit (s : List Char)
    (inference : List String → List Char → List Char) (entities : List String)
    (h : inference entities s = s) :
    reconcile s s = [] ∧
    validate_core inference entities s = ValidationResult.PassResult := by
  constructor
  · rw [reconcile, lcsDiff_self, diff_ranges_keptOps]
    rfl
  · simp [validate_core, h]

theorem reconcile_identity_short_circuit_witness :
    (fun (_ : List String) (v : List Char) => v) [] "abc".toList = "abc".toList ∧
    (reconcile "abc".toList "abc".toList = [] ∧
      validate_core (fun _ v => v) [] "abc".toList = ValidationResult.PassResult) :=
  ⟨rfl, reconcile_identity_short_circuit "abc".toList (fun _ v => v) [] rfl⟩

/-- C4: concatenating, for each returned Finding in order, the flagged
substring `original[start:end]`, interleaved with the unflagged portions of
the original in order, reconstructs the original exactly, for every valid
edit script between the original and the modified string. -/
theorem reconcile_coverage (a b : List Char) (d : List DiffOp)
    (_h : ValidDiff d a b) :
    reconstruct a ((error_spans a (diff_ranges d)).map (fun f => (f.start, f.«end»))) = a := by
  rw [error_spans_ranges]
  obtain ⟨hch, hb, -⟩ := scanDiff_inv d
  rw [reconstruct,
    reconstructGo_eq a (diff_ranges d) 0 hch (fun r hr => (hb r hr).1)
      (fun r _ => Nat.zero_le _)]
  exact List.drop_zero a

theorem reconcile_coverage_witness :
    ValidDiff [⟨DiffTag.kept, 'x'⟩, ⟨DiffTag.removed, 'a'⟩, ⟨DiffTag.kept, 'y'⟩]
        "xay".toList "xy".toList ∧
    reconstruct "xay".toList
      ((error_spans "xay".toList
          (diff_ranges [⟨DiffTag.kept, 'x'⟩, ⟨DiffTag.removed, 'a'⟩, ⟨DiffTag.kept, 'y'⟩])).map
        (fun f => (f.start, f.«end»))) = "xay".toList :=
  ⟨by decide, reconcile_coverage "xay".toList "xy".toList _ (by decide)⟩

/-- C5: every `ErrorSpan` returned by `DetectPII.validate` carries a reason
equal to `"PII detected in "` concatenated with the exact substring of the
original input between the span's start and end offsets. -/
theorem reason_quotes_exact_substring
    (inference : List String → List Char → List Char) (entities : List String)
    (value msg fix : List Char) (spans : List ErrorSpan)
    (hfail : validate_core inference entities value =
      ValidationResult.FailResult msg fix spans)
    (f : ErrorSpan) (hf : f ∈ spans) :
    f.reason = "PII detected in ".toList ++ pySlice value f.start f.«end» := by
  by_cases h : inference entities value = value
  · simp [validate_core, h] at hfail
  · have heq : ValidationResult.FailResult
        ("The following text in your response contains PII:\n".toList ++ value)
        (inference entities value)
        (error_spans value (diff_ranges (lcsDiff value (inference entities value)))) =
        ValidationResult.FailResult msg fix spans := by
      rw [← hfail, validate_core]
      simp [h]
    injection heq with h1 h2 h3
    rw [← h3] at hf
    exact error_spans_reason value _ f hf

theorem reason_quotes_exact_substring_witness :
    (⟨1, 2, "PII detected in a".toList⟩ : ErrorSpan).reason =
      "PII detected in ".toList ++
        pySlice "xay".toList (⟨1, 2, "PII detected in a".toList⟩ : ErrorSpan).start
          (⟨1, 2, "PII detected in a".toList⟩ : ErrorSpan).«end» :=
  reason_quotes_exact_substring (fun _ _ => "xy".toList) [] "xay".toList
    "The following text in your response contains PII:\nxay".toList "xy".toList
    [⟨1, 2, "PII detected in a".toList⟩] (by decide)
    ⟨1, 2, "PII detected in a".toList⟩ (by decide)

/-- C6: the claim states that any two removed runs separated by at least one
kept character are reported as two separate Findings, never merged or
missing. On the claim's own example the code does return exactly the two
findings covering `"555-1234"` and `"a@b.com"`; but when the second run is at
the very end of the diff, as for `reconcile("akb", "k")` (removed `a`, kept
`k`, removed `b`), the trailing run is never closed and the code returns only
one Finding, so a range is missing. -/
theorem separated_removed_runs_two_findings :
    reconcile "akb".toList "k".toList = [⟨0, 1, "PII detected in a".toList⟩] ∧
    reconcile "Call 555-1234 or email a@b.com now".toList "Call  or email  now".toList =
      [⟨5, 13, "PII detected in 555-1234".toList⟩,
       ⟨23, 30, "PII detected in a@b.com".toList⟩] :=
  ⟨by decide, by decide⟩

/-- C7: the diff-and-scan computation is a total function: with every element
access of the scan loop made explicit and fallible, it never faults and
returns exactly the (possibly empty) finding sequence, for any two strings
(empty, identical, or with nothing in common). -/
theorem reconciler_total (a b : List Char) :
    reconcileChecked a b = some (reconcile a b) := by
  rw [reconcileChecked, scanDiffChecked_eq]
  rfl

/-- C8: the reconciler is deterministic: identical `(original, modified)`
input pairs always yield identical finding sequences (same ranges, same
order, same reasons). -/
theorem reconciler_deterministic (a b a2 b2 : List Char) (h1 : a = a2) (h2 : b = b2) :
    reconcile a b = reconcile a2 b2 := by
  rw [h1, h2]

theorem reconciler_deterministic_witness :
    reconcile "ab".toList "a".toList = reconcile "ab".toList "a".toList :=
  reconciler_deterministic "ab".toList "a".toList "ab".toList "a".toList rfl rfl

/-- C9: the validator returns `PassResult` iff the anonymized text equals the
input value; otherwise it returns a `FailResult` whose `fix_value` is exactly
the anonymized text and whose `error_message` embeds the original value,
whatever the computed `error_spans` list (possibly empty). -/
theorem validate_pass_iff_unchanged (inference : List String → List Char → List Char)
    (entities : List String) (value : List Char) :
    (validate_core inference entities value = ValidationResult.PassResult ↔
      inference entities value = value) ∧
    (inference entities value ≠ value →
      validate_core inference entities value =
        ValidationResult.FailResult
          ("The following text in your response contains PII:\n".toList ++ value)
          (inference entities value)
          (error_spans value
            (diff_ranges (lcsDiff value (inference entities value))))) := by
  by_cases h : inference entities value = value
  · exact ⟨⟨fun _ => h, fun _ => by simp [validate_core, h]⟩, fun h2 => absurd h h2⟩
  · refine ⟨⟨fun hp => ?_, fun hv => absurd hv h⟩, fun _ => by simp [validate_core, h]⟩
    rw [validate_core] at hp
    simp [h] at hp

theorem validate_pass_iff_unchanged_witness :
    validate_core (fun _ _ => "x".toList) [] "xy".toList =
      ValidationResult.FailResult
        ("The following text in your response contains PII:\n".toList ++ "xy".toList)
        ((fun (_ : List String) (_ : List Char) => "x".toList) [] "xy".toList)
        (error_spans "xy".toList
          (diff_ranges (lcsDiff "xy".toList
            ((fun (_ : List String) (_ : List Char) => "x".toList) [] "xy".toList)))) :=
  (validate_pass_iff_unchanged (fun _ _ => "x".toList) [] "xy".toList).2 (by decide)

/-- C10: `DetectPII.validate` raises `ValueError` iff the effective
`pii_entities` setting (the metadata entry when present, else the constructor
argument) is `None`, a string other than `"pii"`/`"spi"`, or neither a string
nor a list; a known preset string resolves to exactly `PII_ENTITIES_MAP`'s
list for that key, an explicit list is used as given, and on error the
analyzer is never invoked (the result does not depend on it). -/
theorem entity_resolution_value_error (metadata : Option PyValue)
    (self_pii_entities : PyValue) :
    ((∃ e, resolve_pii_entities (effective_pii_entities metadata self_pii_entities) =
        Except.error e) ↔
      (effective_pii_entities metadata self_pii_entities = PyValue.pyNone ∨
       (∃ s, effective_pii_entities metadata self_pii_entities = PyValue.pyStr s ∧
          s ≠ "pii" ∧ s ≠ "spi") ∨
       effective_pii_entities metadata self_pii_entities = PyValue.other)) ∧
    (∀ s l, PII_ENTITIES_MAP.lookup s = some l →
      resolve_pii_entities (PyValue.pyStr s) = Except.ok l) ∧
    (∀ l, resolve_pii_entities (PyValue.pyList l) = Except.ok l) ∧
    (∀ e, resolve_pii_entities (effective_pii_entities metadata self_pii_entities) =
        Except.error e →
      ∀ inference inference2 value,
        DetectPII_validate inference metadata self_pii_entities value =
          DetectPII_validate inference2 metadata self_pii_entities value) := by
  refine ⟨resolve_error_iff _, fun s l hl => by simp [resolve_pii_entities, hl],
    fun l => rfl, fun e he inference inference2 value => ?_⟩
  rw [DetectPII_validate, DetectPII_validate, he]

theorem entity_resolution_value_error_witness :
    resolve_pii_entities (PyValue.pyStr "pii") =
      Except.ok ["EMAIL_ADDRESS", "PHONE_NUMBER", "DOMAIN_NAME", "IP_ADDRESS",
        "DATE_TIME", "LOCATION", "PERSON", "URL"] :=
  (entity_resolution_value_error (some (PyValue.pyStr "pii")) PyValue.pyNone).2.1
    "pii" _ (by decide)

end FirewallMCP
